import Mathlib

/-!
Shallow embedding of `Elgamal_Signature.py`: an ElGamal signature scheme over
the order-`q` subgroup of `Z_p^*` for a safe prime `p = 2q + 1`.

Randomness is made explicit: every call to `random.SystemRandom().randrange`
or `getrandbits` consumes one seed value, supplied as an argument; retry
loops consume a list of such draws and return `Option` (`none` models a trace
in which the supplied randomness never satisfies the loop's exit condition).
SHA-256 (`hashlib.sha256`, external to the repository) is modelled as an
arbitrary function `H : List ℕ → ℕ` from byte strings to digest integers,
passed to `sign` and `verify`; both use the same function, which is all the
verified properties rely on.
-/

/-- Model of Python's `random.randrange(lo, hi)`: a uniformly random value of
`[lo, hi)`, determined here by an explicit seed.  For `lo < hi` the result
always lies in `[lo, hi)`, and every such value is realised by some seed. -/
def randrange (lo hi seed : ℕ) : ℕ := lo + seed % (hi - lo)

/-- Model of Python's `random.getrandbits(bits)`: a uniformly random value of
`[0, 2^bits)`, determined here by an explicit seed. -/
def getrandbits (bits seed : ℕ) : ℕ := seed % 2 ^ bits

/-- The fixed trial-division list of `is_prime` (line 15 of the source). -/
def smallPrimes : List ℕ := [2, 3, 5, 7, 11, 13, 17, 19, 23]

/-- The small-primes fast path of `is_prime` (lines 15-19): an exact match
returns `some true`, divisibility returns `some false`, and `none` means the
loop fell through to the Miller-Rabin phase. -/
def trialSmall (n : ℕ) : List ℕ → Option Bool
  | [] => none
  | p :: ps =>
      if n = p then some true
      else if n % p = 0 then some false
      else trialSmall n ps

/-- The `while d % 2 == 0` loop of `is_prime` (lines 21-24), written with
explicit fuel so that it is structurally recursive; `fuel ≥ d` suffices for
the loop to run to completion, and the source only reaches the loop with
`d = n - 1 > 0`, where it terminates. -/
def factorTwosFuel : ℕ → ℕ → ℕ → ℕ × ℕ
  | 0, r, d => (r, d)
  | fuel + 1, r, d =>
      if d % 2 = 0 ∧ d ≠ 0 then factorTwosFuel fuel (r + 1) (d / 2) else (r, d)

/-- Write `d = 2^r * d'` with `d'` odd, starting from accumulator `r`
(lines 21-24 of the source, which start from `r = 0`, `d = n - 1`). -/
def factorTwos (r d : ℕ) : ℕ × ℕ := factorTwosFuel d r d

/-- The inner squaring loop of one Miller-Rabin round (lines 31-36):
repeatedly square `x` modulo `n`, at most `t` times, and report whether some
square reaches `n - 1` (Python's `for ... else` with `break`). -/
def squareLoop (n x : ℕ) : ℕ → Bool
  | 0 => false
  | t + 1 =>
      let x2 := x ^ 2 % n
      if x2 = n - 1 then true else squareLoop n x2 t

/-- The witness loop of `is_prime` (lines 26-37): one random witness
`a = randrange 2 (n-1) seed` per round; return `false` at the first witness
that proves `n` composite, `true` if every round passes. -/
def witnessLoop (n d r : ℕ) : List ℕ → Bool
  | [] => true
  | seed :: rest =>
      let a := randrange 2 (n - 1) seed
      let x := a ^ d % n
      if x = 1 ∨ x = n - 1 then witnessLoop n d r rest
      else if squareLoop n x (r - 1) then witnessLoop n d r rest
      else false

/-- Body of `is_prime` after the `n < 2` guard (lines 14-37): small-primes
trial division, the `n - 1 = 2^r * d` decomposition, then the witness loop. -/
def is_primeAux (n : ℕ) (ws : List ℕ) : Bool :=
  match trialSmall n smallPrimes with
  | some b => b
  | none =>
      let rd := factorTwos 0 (n - 1)
      witnessLoop n rd.2 rd.1 ws

/-- Embedding of `is_prime(n, k)` (lines 10-37).  The input is an integer as in Python;
the number of rounds `k` is the length of the seed list `ws`. -/
def is_prime (n : ℤ) (ws : List ℕ) : Bool :=
  if n < 2 then false else is_primeAux n.toNat ws

/-- Embedding of `generate_prime_candidate(bits)` (lines 39-44): `bits` random bits with
the top and bottom bit forced to 1. -/
def generate_prime_candidate (bits seed : ℕ) : ℕ :=
  getrandbits bits seed ||| (1 <<< (bits - 1) ||| 1)

/-- Embedding of `generate_prime(bits)` (lines 46-51): retry candidates until `is_prime`
accepts one.  Each loop iteration consumes one candidate seed and one list of
witness seeds. -/
def generate_prime (bits : ℕ) : List (ℕ × List ℕ) → Option ℕ
  | [] => none
  | (seed, ws) :: rest =>
      let q := generate_prime_candidate bits seed
      if is_prime (q : ℤ) ws then some q else generate_prime bits rest

/-- Embedding of `generate_p_q(q_bits)` (lines 53-63): generate `q`, set `p = 2q + 1`,
accept when `is_prime` also accepts `p`.  Each outer iteration consumes the
draws of one `generate_prime` run and one witness-seed list for `p`. -/
def generate_p_q (qbits : ℕ) : List (List (ℕ × List ℕ) × List ℕ) → Option (ℕ × ℕ)
  | [] => none
  | (inner, ws) :: rest =>
      match generate_prime qbits inner with
      | none => none
      | some q =>
          let p := 2 * q + 1
          if is_prime ((p : ℕ) : ℤ) ws then some (p, q) else generate_p_q qbits rest

/-- Embedding of `find_generator(p, q)` (lines 65-75): draw `h` from `[2, p-2]`, set
`g = h^((p-1)//q) mod p`, accept when `g > 1`. -/
def find_generator (p q : ℕ) : List ℕ → Option ℕ
  | [] => none
  | seed :: rest =>
      let h := randrange 2 (p - 1) seed
      let g := h ^ ((p - 1) / q) % p
      if 1 < g then some g else find_generator p q rest

/-- Embedding of `generate_keys(p, g)` (lines 82-90): `x = randrange(2, p-2)`,
`y = g^x mod p`. -/
def generate_keys (p g seed : ℕ) : ℕ × ℕ :=
  let x := randrange 2 (p - 2) seed
  (x, g ^ x % p)

/-- Model of Python's `pow(k, -1, q)` (line 106; implemented by CPython,
external to the repository): the unique multiplicative inverse of `k` in
`[0, q)` when it exists, found by direct search.  The default `0` is only
returned when no inverse exists, in which case CPython raises; `sign` only
evaluates it under the guard `gcd(k, q) = 1`, where the inverse exists. -/
def mod_inv (k q : ℕ) : ℕ :=
  ((List.range q).find? (fun m => k * m % q == 1)).getD 0

/-- Embedding of `sign(msg, p, g, x, q)` (lines 92-109).  One ephemeral seed per loop
iteration; the hash `H` stands for SHA-256 interpreted big-endian.
The quantity `h - x * (r % q)` is computed in ℤ, and `% q` is Python's
floor-mod, which agrees with `Int.emod` for the positive modulus `q`. -/
def sign (H : List ℕ → ℕ) (msg : List ℕ) (p g x q : ℕ) : List ℕ → Option (ℕ × ℕ)
  | [] => none
  | seed :: rest =>
      let h := H msg % q
      let k := randrange 2 (q - 1) seed
      if Nat.gcd k q ≠ 1 then sign H msg p g x q rest
      else
        let r := g ^ k % p
        if r = 0 then sign H msg p g x q rest
        else
          let s := (((mod_inv k q : ℕ) : ℤ) * ((h : ℤ) - (x : ℤ) * ((r % q : ℕ) : ℤ)) % (q : ℤ)).toNat
          if s ≠ 0 then some (r, s) else sign H msg p g x q rest

/-- Embedding of `verify(msg, (r, s), p, g, y, q)` (lines 111-124).  The signature
components are integers as in Python; out-of-range components return `false`
before any arithmetic is attempted. -/
def verify (H : List ℕ → ℕ) (msg : List ℕ) (sig : ℤ × ℤ) (p g y q : ℕ) : Bool :=
  if 0 < sig.1 ∧ sig.1 < (p : ℤ) ∧ 0 < sig.2 ∧ sig.2 < (q : ℤ) then
    let h := H msg % q
    (y ^ sig.1.toNat % p) * (sig.1.toNat ^ sig.2.toNat % p) % p == g ^ h % p
  else false

/-! ### Generic cast helpers -/

/-- Natural numbers below the modulus are distinguished by their images in
`ZMod n`. -/
lemma natCast_inj_of_lt {n a b : ℕ} (ha : a < n) (hb : b < n)
    (h : (a : ZMod n) = (b : ZMod n)) : a = b := by
  have hv := congrArg ZMod.val h
  rwa [ZMod.val_cast_of_lt ha, ZMod.val_cast_of_lt hb] at hv

/-- The image of `n - 1` in `ZMod n` is `-1`. -/
lemma natCast_sub_one {n : ℕ} (hn : 1 ≤ n) : ((n - 1 : ℕ) : ZMod n) = -1 := by
  rw [Nat.cast_sub hn, ZMod.natCast_self, Nat.cast_one, zero_sub]

/-! ### Completeness of the Miller-Rabin phase on primes -/

/-- Walking back from `b ^ 2 ^ r = 1` through repeated square roots in the
field `ZMod n`: either `b` itself is `1`, or some intermediate power is
`-1`. -/
lemma mr_cycle {n : ℕ} [Fact n.Prime] (b : ZMod n) (r : ℕ) (h : b ^ 2 ^ r = 1) :
    b = 1 ∨ ∃ i, i < r ∧ b ^ 2 ^ i = -1 := by
  induction r with
  | zero => exact Or.inl (by simpa using h)
  | succ r ih =>
      have hsplit : b ^ 2 ^ (r + 1) = b ^ 2 ^ r * b ^ 2 ^ r := by
        rw [← pow_add, ← two_mul, pow_succ']
      rw [hsplit] at h
      rcases mul_self_eq_one_iff.mp h with h1 | h1
      · rcases ih h1 with h2 | ⟨i, hi, h2⟩
        · exact Or.inl h2
        · exact Or.inr ⟨i, Nat.lt_succ_of_lt hi, h2⟩
      · exact Or.inr ⟨r, Nat.lt_succ_self r, h1⟩

/-- If some `2 ^ j`-th power of `x` is `-1` modulo `n` with `1 ≤ j ≤ t`, the
squaring loop reports success. -/
lemma squareLoop_reaches {n : ℕ} (hn : 2 ≤ n) :
    ∀ (t x j : ℕ), x < n → 1 ≤ j → j ≤ t → ((x : ZMod n)) ^ 2 ^ j = -1 →
      squareLoop n x t = true := by
  intro t
  induction t with
  | zero => intro x j _ h1 h2 _; omega
  | succ t ih =>
      intro x j hx hj1 hjt hpow
      have hx2lt : x ^ 2 % n < n := Nat.mod_lt _ (by omega)
      have hx2cast : ((x ^ 2 % n : ℕ) : ZMod n) = (x : ZMod n) ^ 2 := by
        rw [ZMod.natCast_mod, Nat.cast_pow]
      simp only [squareLoop]
      by_cases hhit : x ^ 2 % n = n - 1
      · rw [if_pos hhit]
      · rw [if_neg hhit]
        have hj2 : 2 ≤ j := by
          rcases Nat.lt_or_ge j 2 with hj | hj
          · exfalso
            have hjeq : j = 1 := by omega
            rw [hjeq, pow_one] at hpow
            have : ((x ^ 2 % n : ℕ) : ZMod n) = ((n - 1 : ℕ) : ZMod n) := by
              rw [hx2cast, hpow, natCast_sub_one (by omega)]
            exact hhit (natCast_inj_of_lt hx2lt (by omega) this)
          · exact hj
        have hpow' : ((x ^ 2 % n : ℕ) : ZMod n) ^ 2 ^ (j - 1) = -1 := by
          rw [hx2cast, ← pow_mul]
          have h2j : 2 * 2 ^ (j - 1) = 2 ^ j := by
            rw [← pow_succ']
            congr 1
            omega
          rw [h2j]
          exact hpow
        exact ih (x ^ 2 % n) (j - 1) hx2lt (by omega) (by omega) hpow'

/-- For prime `n ≥ 5` and a witness `a` with `0 < a < n`, one Miller-Rabin
round can never declare `n` composite: either the first check or the
squaring loop succeeds. -/
lemma witness_passes {n : ℕ} [Fact n.Prime] (hn : 5 ≤ n)
    {r d a : ℕ} (hrd : 2 ^ r * d = n - 1)
    (ha0 : 0 < a) (han : a < n) :
    a ^ d % n = 1 ∨ a ^ d % n = n - 1 ∨ squareLoop n (a ^ d % n) (r - 1) = true := by
  have hacast : (a : ZMod n) ≠ 0 := by
    intro h0
    have hv := congrArg ZMod.val h0
    rw [ZMod.val_cast_of_lt han, ZMod.val_zero] at hv
    omega
  have hfermat : (a : ZMod n) ^ (n - 1) = 1 := ZMod.pow_card_sub_one_eq_one hacast
  have hxlt : a ^ d % n < n := Nat.mod_lt _ (by omega)
  have hxcast : ((a ^ d % n : ℕ) : ZMod n) = (a : ZMod n) ^ d := by
    rw [ZMod.natCast_mod, Nat.cast_pow]
  have hb : ((a : ZMod n) ^ d) ^ 2 ^ r = 1 := by
    rw [← pow_mul, mul_comm d, hrd]
    exact hfermat
  rcases mr_cycle ((a : ZMod n) ^ d) r hb with h1 | ⟨i, hir, hi⟩
  · left
    exact natCast_inj_of_lt hxlt (by omega)
      (by rw [hxcast, h1, Nat.cast_one])
  · rcases Nat.eq_zero_or_pos i with hi0 | hipos
    · right; left
      rw [hi0, pow_zero, pow_one] at hi
      exact natCast_inj_of_lt hxlt (by omega)
        (by rw [hxcast, hi, natCast_sub_one (by omega)])
    · right; right
      refine squareLoop_reaches (by omega) (r - 1) (a ^ d % n) i hxlt hipos (by omega) ?_
      rw [hxcast]
      exact hi

/-- For prime `n ≥ 5` the whole witness loop succeeds, whatever seeds are
drawn: each witness `randrange 2 (n-1) seed` lies in `[2, n-2]`. -/
lemma witnessLoop_complete {n : ℕ} [Fact n.Prime] (hn : 5 ≤ n)
    {r d : ℕ} (hrd : 2 ^ r * d = n - 1) :
    ∀ ws : List ℕ, witnessLoop n d r ws = true := by
  intro ws
  induction ws with
  | nil => rfl
  | cons seed rest ih =>
      have hmodlt : seed % (n - 1 - 2) < n - 1 - 2 := Nat.mod_lt _ (by omega)
      have ha0 : 0 < randrange 2 (n - 1) seed := by
        unfold randrange
        omega
      have han : randrange 2 (n - 1) seed < n := by
        unfold randrange
        omega
      rcases witness_passes hn hrd ha0 han with h | h | h
      · simp [witnessLoop, h, ih]
      · simp [witnessLoop, h, ih]
      · simp [witnessLoop, h, ih, ite_self]

/-- The trial-division loop never rejects a prime: divisibility of the prime
`n` by a list prime `p ≥ 2` forces `n = p`, caught by the equality branch. -/
lemma trialSmall_of_prime {n : ℕ} (hn : n.Prime) :
    ∀ l : List ℕ, (∀ p ∈ l, 2 ≤ p) → ∀ b, trialSmall n l = some b → b = true := by
  intro l
  induction l with
  | nil => intro _ b h; exact absurd h (by simp [trialSmall])
  | cons p ps ih =>
      intro hl b h
      by_cases hnp : n = p
      · rw [trialSmall, if_pos hnp] at h
        exact (Option.some.inj h).symm
      · rw [trialSmall, if_neg hnp] at h
        by_cases hmod : n % p = 0
        · exfalso
          have hdvd : p ∣ n := Nat.dvd_of_mod_eq_zero hmod
          rcases (Nat.Prime.eq_one_or_self_of_dvd hn p hdvd) with h1 | h1
          · have := hl p (List.mem_cons_self p ps)
            omega
          · exact hnp h1.symm
        · rw [if_neg hmod] at h
          exact ih (fun q hq => hl q (List.mem_cons_of_mem p hq)) b h

/-- Falling through trial division rules out `n = 2`, `n = 3` and even `n`. -/
lemma trialSmall_none_facts {n : ℕ} (h : trialSmall n smallPrimes = none) :
    n ≠ 2 ∧ n % 2 ≠ 0 ∧ n ≠ 3 := by
  refine ⟨?_, ?_, ?_⟩
  · intro hc
    subst hc
    exact absurd h (by decide)
  · intro hc
    by_cases h2 : n = 2
    · subst h2
      exact absurd h (by decide)
    · rw [smallPrimes, trialSmall, if_neg h2, if_pos hc] at h
      exact absurd h (by simp)
  · intro hc
    subst hc
    exact absurd h (by decide)

/-- The two-adic decomposition performed by lines 21-24: for `0 < m`,
`factorTwos 0 m` returns `(r, d)` with `d` odd and `2 ^ r * d = m`. -/
lemma factorTwosFuel_spec :
    ∀ (fuel r d : ℕ), 0 < d → d ≤ fuel →
      (factorTwosFuel fuel r d).2 % 2 = 1 ∧
        2 ^ (factorTwosFuel fuel r d).1 * (factorTwosFuel fuel r d).2 = 2 ^ r * d := by
  intro fuel
  induction fuel with
  | zero => intro r d hd hle; omega
  | succ fuel ih =>
      intro r d hd hle
      by_cases hc : d % 2 = 0 ∧ d ≠ 0
      · rw [factorTwosFuel, if_pos hc]
        obtain ⟨h1, h2⟩ := ih (r + 1) (d / 2) (by omega) (by omega)
        refine ⟨h1, ?_⟩
        rw [h2, pow_succ, mul_assoc]
        have hdd : 2 * (d / 2) = d := by omega
        rw [hdd]
      · rw [factorTwosFuel, if_neg hc]
        exact ⟨by omega, rfl⟩

/-- Specification of `factorTwos 0 m` for positive `m`. -/
lemma factorTwos_spec {m : ℕ} (hm : 0 < m) :
    (factorTwos 0 m).2 % 2 = 1 ∧ 2 ^ (factorTwos 0 m).1 * (factorTwos 0 m).2 = m := by
  have h := factorTwosFuel_spec m 0 m hm (le_refl m)
  rw [factorTwos]
  simpa using h

/-- The body of `is_prime` accepts every prime, for every seed sequence. -/
lemma is_primeAux_complete {n : ℕ} (hn : n.Prime) (ws : List ℕ) :
    is_primeAux n ws = true := by
  unfold is_primeAux
  cases htr : trialSmall n smallPrimes with
  | some b => simpa using trialSmall_of_prime hn smallPrimes (by decide) b htr
  | none =>
      obtain ⟨h2, hodd, h3⟩ := trialSmall_none_facts htr
      have h5 : 5 ≤ n := by
        have h2le := hn.two_le
        have h4 : n ≠ 4 := by omega
        omega
      haveI : Fact n.Prime := ⟨hn⟩
      obtain ⟨hd, hrd⟩ := factorTwos_spec (m := n - 1) (by omega)
      exact witnessLoop_complete h5 hrd ws

/-- `is_prime` never returns `false` on a prime input, whatever randomness
is drawn: Miller-Rabin as implemented has no false negatives. -/
lemma is_prime_of_prime (n : ℕ) (hn : n.Prime) (ws : List ℕ) :
    is_prime (n : ℤ) ws = true := by
  unfold is_prime
  rw [if_neg (by exact_mod_cast Nat.not_lt.mpr hn.two_le), Int.toNat_natCast]
  exact is_primeAux_complete hn ws

/-! ### Modular inverse -/

/-- The model `pow(k, -1, q)` really inverts `k` modulo `q` when `gcd(k, q) = 1`. -/
lemma mod_inv_spec {k q : ℕ} (hq : 1 < q) (hco : Nat.gcd k q = 1) :
    k * mod_inv k q % q = 1 := by
  have hcop : Nat.Coprime k q := hco
  haveI : NeZero q := ⟨by omega⟩
  have hmul : (k : ZMod q) * ((ZMod.unitOfCoprime k hcop)⁻¹ : (ZMod q)ˣ) = 1 := by
    have h := Units.mul_inv (ZMod.unitOfCoprime k hcop)
    rwa [ZMod.coe_unitOfCoprime] at h
  set m := (((ZMod.unitOfCoprime k hcop)⁻¹ : (ZMod q)ˣ) : ZMod q).val with hm
  have hmlt : m < q := ZMod.val_lt _
  have hprop : k * m % q = 1 := by
    have hcast : ((k * m % q : ℕ) : ZMod q) = ((1 : ℕ) : ZMod q) := by
      rw [ZMod.natCast_mod, Nat.cast_mul, Nat.cast_one, hm,
        ZMod.natCast_rightInverse _]
      exact hmul
    exact natCast_inj_of_lt (Nat.mod_lt _ (by omega)) hq hcast
  have hfind : ∃ v, (List.range q).find? (fun m' => k * m' % q == 1) = some v := by
    cases hF : (List.range q).find? (fun m' => k * m' % q == 1) with
    | some v => exact ⟨v, rfl⟩
    | none =>
        exfalso
        have hnone := List.find?_eq_none.mp hF m (List.mem_range.mpr hmlt)
        simp [hprop] at hnone
  obtain ⟨v, hv⟩ := hfind
  have hvp : k * v % q = 1 := by
    have h := List.find?_some hv
    simpa using h
  rw [mod_inv, hv]
  exact hvp

/-! ### Anatomy of a successful signing call -/

/-- A successful `sign` call returns values produced by the accepted loop
iteration: `r = g^k mod p` for some ephemeral `k` coprime to `q`, `r ≠ 0`,
`s ≠ 0`, and `s = k⁻¹ (h - x (r mod q)) mod q`. -/
lemma sign_eq_some {H : List ℕ → ℕ} {msg : List ℕ} {p g x q : ℕ} :
    ∀ {seeds : List ℕ} {r s : ℕ}, sign H msg p g x q seeds = some (r, s) →
      ∃ k, Nat.gcd k q = 1 ∧ r = g ^ k % p ∧ r ≠ 0 ∧ s ≠ 0 ∧
        s = (((mod_inv k q : ℕ) : ℤ) *
          (((H msg % q : ℕ) : ℤ) - (x : ℤ) * ((r % q : ℕ) : ℤ)) % (q : ℤ)).toNat := by
  intro seeds
  induction seeds with
  | nil => intro r s h; exact absurd h (by simp [sign])
  | cons seed rest ih =>
      intro r s h
      simp only [sign] at h
      split_ifs at h with h1 h2 h3
      · exact ih h
      · exact ih h
      · obtain ⟨hr, hs⟩ := Prod.mk.injEq _ _ _ _ ▸ Option.some.inj h
        subst hr
        subst hs
        exact ⟨randrange 2 (q - 1) seed, not_not.mp (by simpa using h1), rfl, h2, h3, rfl⟩
      · exact ih h

/-- C1 helper: the verification equation holds in `ZMod q` for the exponents
produced by signing. -/
lemma sign_exponent_eq {q : ℕ} (hq1 : 1 < q) {k x r s hh : ℕ}
    (hgcd : Nat.gcd k q = 1)
    (hs : s = (((mod_inv k q : ℕ) : ℤ) *
      ((hh : ℤ) - (x : ℤ) * ((r % q : ℕ) : ℤ)) % (q : ℤ)).toNat) :
    ((x * r + k * s : ℕ) : ZMod q) = ((hh : ℕ) : ZMod q) := by
  have hq0 : (0 : ℤ) < (q : ℤ) := by exact_mod_cast Nat.lt_of_lt_of_le Nat.zero_lt_one hq1.le
  have hkinv : ((k : ℕ) : ZMod q) * ((mod_inv k q : ℕ) : ZMod q) = 1 := by
    have h := mod_inv_spec hq1 hgcd
    have hcast : ((k * mod_inv k q % q : ℕ) : ZMod q) = ((1 : ℕ) : ZMod q) := by rw [h]
    rwa [ZMod.natCast_mod, Nat.cast_mul, Nat.cast_one] at hcast
  have hsbar : ((s : ℕ) : ZMod q) =
      ((mod_inv k q : ℕ) : ZMod q) * (((hh : ℕ) : ZMod q) - ((x : ℕ) : ZMod q) * ((r : ℕ) : ZMod q)) := by
    rw [hs]
    rw [← Int.cast_natCast (R := ZMod q),
      Int.toNat_of_nonneg (Int.emod_nonneg _ (by omega)), ZMod.intCast_mod]
    push_cast
    rfl
  push_cast
  push_cast at hsbar
  rw [hsbar, ← mul_assoc]
  push_cast at hkinv
  rw [hkinv]
  ring

/-- C1: for every domain parameter set and keypair shaped as the generation
pipeline produces them (`p`, `q` prime, `p = 2q + 1`, `g` of order `q` in
`ZMod p`, `y = g^x mod p`) and every message, any signature returned by
`sign` is accepted by `verify`. -/
theorem sign_verify_roundtrip
    {H : List ℕ → ℕ} {msg : List ℕ} {p q g x y : ℕ} {seeds : List ℕ} {r s : ℕ}
    (hp : p.Prime) (hq : q.Prime) (hpq : p = 2 * q + 1)
    (hord : orderOf ((g : ℕ) : ZMod p) = q)
    (hy : y = g ^ x % p)
    (hsig : sign H msg p g x q seeds = some (r, s)) :
    verify H msg ((r : ℤ), (s : ℤ)) p g y q = true := by
  obtain ⟨k, hgcd, hr, hr0, hs0, hs⟩ := sign_eq_some hsig
  haveI : Fact p.Prime := ⟨hp⟩
  have hq1 : 1 < q := hq.one_lt
  have hp0 : 0 < p := hp.pos
  have hrlt : r < p := hr ▸ Nat.mod_lt _ hp0
  have hsnn : (0 : ℤ) ≤ ((mod_inv k q : ℕ) : ℤ) *
      (((H msg % q : ℕ) : ℤ) - (x : ℤ) * ((r % q : ℕ) : ℤ)) % (q : ℤ) :=
    Int.emod_nonneg _ (by omega)
  have hsble : ((mod_inv k q : ℕ) : ℤ) *
      (((H msg % q : ℕ) : ℤ) - (x : ℤ) * ((r % q : ℕ) : ℤ)) % (q : ℤ) < (q : ℤ) :=
    Int.emod_lt_of_pos _ (by omega)
  have hslt : s < q := by omega
  have hcond : (0 : ℤ) < ((r : ℕ) : ℤ) ∧ ((r : ℕ) : ℤ) < (p : ℕ) ∧
      (0 : ℤ) < ((s : ℕ) : ℤ) ∧ ((s : ℕ) : ℤ) < (q : ℕ) := by
    refine ⟨by exact_mod_cast Nat.pos_of_ne_zero hr0, by exact_mod_cast hrlt,
      by exact_mod_cast Nat.pos_of_ne_zero hs0, by exact_mod_cast hslt⟩
  simp only [verify, Int.toNat_natCast]
  rw [if_pos hcond]
  simp only [beq_iff_eq]
  apply natCast_inj_of_lt (Nat.mod_lt _ hp0) (Nat.mod_lt _ hp0)
  have hybar : ((y : ℕ) : ZMod p) = ((g : ℕ) : ZMod p) ^ x := by
    rw [hy, ZMod.natCast_mod, Nat.cast_pow]
  have hrbar : ((r : ℕ) : ZMod p) = ((g : ℕ) : ZMod p) ^ k := by
    rw [hr, ZMod.natCast_mod, Nat.cast_pow]
  rw [ZMod.natCast_mod, Nat.cast_mul, ZMod.natCast_mod, ZMod.natCast_mod,
    Nat.cast_pow, Nat.cast_pow, ZMod.natCast_mod, Nat.cast_pow, hybar, hrbar,
    ← pow_mul, ← pow_mul, ← pow_add]
  have hmod : (x * r + k * s) % q = (H msg % q) % q := by
    have := (ZMod.natCast_eq_natCast_iff (x * r + k * s) (H msg % q) q).mp
      (sign_exponent_eq hq1 hgcd hs)
    exact this
  rw [← pow_mod_orderOf, hord, hmod, ← hord, pow_mod_orderOf]

/-! ### Anatomy of the other generation loops -/

/-- A successful `find_generator` call returns
`randrange 2 (p-1) seed ^ ((p-1)/q) mod p` for one of the drawn seeds, and
the accepted value passed the `g > 1` guard. -/
lemma find_generator_eq_some {p q : ℕ} :
    ∀ {seeds : List ℕ} {gv : ℕ}, find_generator p q seeds = some gv →
      ∃ seed, gv = randrange 2 (p - 1) seed ^ ((p - 1) / q) % p ∧ 1 < gv := by
  intro seeds
  induction seeds with
  | nil => intro gv h; exact absurd h (by simp [find_generator])
  | cons seed rest ih =>
      intro gv h
      simp only [find_generator] at h
      split_ifs at h with hc
      · exact ⟨seed, (Option.some.inj h).symm, (Option.some.inj h) ▸ hc⟩
      · exact ih h

/-- A successful `generate_prime` call returns a candidate built from one of
the drawn seeds, accepted by `is_prime` with the witness seeds of the same
iteration. -/
lemma generate_prime_eq_some {bits : ℕ} :
    ∀ {draws : List (ℕ × List ℕ)} {q : ℕ}, generate_prime bits draws = some q →
      ∃ d ∈ draws, q = generate_prime_candidate bits d.1 ∧ is_prime (q : ℤ) d.2 = true := by
  intro draws
  induction draws with
  | nil => intro q h; exact absurd h (by simp [generate_prime])
  | cons d rest ih =>
      intro q h
      obtain ⟨seed, ws⟩ := d
      simp only [generate_prime] at h
      split_ifs at h with hc
      · have hq := Option.some.inj h
        subst hq
        exact ⟨(seed, ws), List.mem_cons_self _ _, rfl, hc⟩
      · obtain ⟨d, hd, h1, h2⟩ := ih h
        exact ⟨d, List.mem_cons_of_mem _ hd, h1, h2⟩

/-- A successful `generate_p_q` call returns `(2q + 1, q)` where `q` is a
candidate accepted by `is_prime` inside `generate_prime`, and `p = 2q + 1`
was accepted by `is_prime` with the witness seeds of the accepting outer
iteration. -/
lemma generate_p_q_eq_some {qbits : ℕ} :
    ∀ {draws : List (List (ℕ × List ℕ) × List ℕ)} {p q : ℕ},
      generate_p_q qbits draws = some (p, q) →
        p = 2 * q + 1 ∧ ∃ e ∈ draws,
          (∃ c ∈ e.1, q = generate_prime_candidate qbits c.1 ∧
            is_prime (q : ℤ) c.2 = true) ∧
          is_prime (p : ℤ) e.2 = true := by
  intro draws
  induction draws with
  | nil => intro p q h; exact absurd h (by simp [generate_p_q])
  | cons e rest ih =>
      intro p q h
      obtain ⟨inner, ws⟩ := e
      cases hgp : generate_prime qbits inner with
      | none =>
          simp only [generate_p_q, hgp] at h
          exact absurd h (by simp)
      | some q' =>
          simp only [generate_p_q, hgp] at h
          split_ifs at h with hc
          · obtain ⟨hp, hq⟩ := Prod.mk.injEq _ _ _ _ ▸ Option.some.inj h
            subst hq
            subst hp
            obtain ⟨c, hcmem, h1, h2⟩ := generate_prime_eq_some hgp
            exact ⟨rfl, (inner, ws), List.mem_cons_self _ _, ⟨c, hcmem, h1, h2⟩, hc⟩
          · obtain ⟨h1, e', he', h2⟩ := ih h
            exact ⟨h1, e', List.mem_cons_of_mem _ he', h2⟩

/-! ### The claims -/

/-- C2: for every message, public key, domain parameters and every integer
pair `(r, s)` with `r ≤ 0`, `r ≥ p`, `s ≤ 0` or `s ≥ q`, `verify` returns
`false` (it is a total Boolean function, so it raises nothing). -/
theorem verify_out_of_range_false
    (H : List ℕ → ℕ) (msg : List ℕ) (p g y q : ℕ) (r s : ℤ)
    (hbad : r ≤ 0 ∨ (p : ℤ) ≤ r ∨ s ≤ 0 ∨ (q : ℤ) ≤ s) :
    verify H msg (r, s) p g y q = false := by
  simp only [verify]
  rw [if_neg]
  rintro ⟨h1, h2, h3, h4⟩
  rcases hbad with h | h | h | h <;> omega

theorem verify_out_of_range_false_witness :
    verify (fun _ => 0) [] (0, 1) 11 3 9 5 = false :=
  verify_out_of_range_false (fun _ => 0) [] 11 3 9 5 0 1 (Or.inl le_rfl)

/-- C3: for prime `q > 4`, prime `p = 2q + 1`, any generator `g` and private
exponent `x`, every pair `(r, s)` returned by `sign` satisfies `0 < r < p`
and `0 < s < q` (in particular `s ≠ 0`). -/
theorem sign_output_range
    {H : List ℕ → ℕ} {msg : List ℕ} {p g x q : ℕ} {seeds : List ℕ} {r s : ℕ}
    (hq : q.Prime) (hq4 : 4 < q) (hp : p.Prime) (hpq : p = 2 * q + 1)
    (hsig : sign H msg p g x q seeds = some (r, s)) :
    0 < r ∧ r < p ∧ 0 < s ∧ s < q := by
  obtain ⟨k, hgcd, hr, hr0, hs0, hs⟩ := sign_eq_some hsig
  have hp0 : 0 < p := hp.pos
  have hnn : (0 : ℤ) ≤ ((mod_inv k q : ℕ) : ℤ) *
      (((H msg % q : ℕ) : ℤ) - (x : ℤ) * ((r % q : ℕ) : ℤ)) % (q : ℤ) :=
    Int.emod_nonneg _ (by omega)
  have hlt : ((mod_inv k q : ℕ) : ℤ) *
      (((H msg % q : ℕ) : ℤ) - (x : ℤ) * ((r % q : ℕ) : ℤ)) % (q : ℤ) < (q : ℤ) :=
    Int.emod_lt_of_pos _ (by omega)
  exact ⟨Nat.pos_of_ne_zero hr0, hr ▸ Nat.mod_lt _ hp0,
    Nat.pos_of_ne_zero hs0, by omega⟩

theorem sign_output_range_witness : 0 < 5 ∧ 5 < 11 ∧ 0 < 4 ∧ 4 < 5 :=
  sign_output_range (by norm_num) (by norm_num) (by norm_num) (by norm_num)
    (show sign (fun _ => 7) [] 11 3 2 5 [1] = some (5, 4) by decide)

/-- C4: for prime `p > 3` and prime `q` dividing `p - 1`, every value
returned by `find_generator p q` satisfies `1 < g < p` and
`g ^ q mod p = 1`. -/
theorem find_generator_spec {p q : ℕ} {seeds : List ℕ} {gv : ℕ}
    (hp : p.Prime) (hp3 : 3 < p) (hq : q.Prime) (hdvd : q ∣ p - 1)
    (hfind : find_generator p q seeds = some gv) :
    1 < gv ∧ gv < p ∧ gv ^ q % p = 1 := by
  obtain ⟨seed, hgv, hgv1⟩ := find_generator_eq_some hfind
  haveI : Fact p.Prime := ⟨hp⟩
  have hp0 : 0 < p := by omega
  refine ⟨hgv1, hgv ▸ Nat.mod_lt _ hp0, ?_⟩
  have hmlt : seed % (p - 1 - 2) < p - 1 - 2 := Nat.mod_lt _ (by omega)
  have hh0 : 0 < randrange 2 (p - 1) seed := by unfold randrange; omega
  have hhp : randrange 2 (p - 1) seed < p := by unfold randrange; omega
  have hcast : ((randrange 2 (p - 1) seed : ℕ) : ZMod p) ≠ 0 := by
    intro h0
    have hv := congrArg ZMod.val h0
    rw [ZMod.val_cast_of_lt hhp, ZMod.val_zero] at hv
    omega
  have hfermat : ((randrange 2 (p - 1) seed : ℕ) : ZMod p) ^ (p - 1) = 1 :=
    ZMod.pow_card_sub_one_eq_one hcast
  have he : (p - 1) / q * q = p - 1 := Nat.div_mul_cancel hdvd
  apply natCast_inj_of_lt (Nat.mod_lt _ hp0) (by omega)
  rw [hgv, ZMod.natCast_mod, Nat.cast_pow, ZMod.natCast_mod, Nat.cast_pow,
    ← pow_mul, he, Nat.cast_one]
  exact hfermat

theorem find_generator_spec_witness : 1 < 4 ∧ 4 < 11 ∧ 4 ^ 5 % 11 = 1 :=
  find_generator_spec (by norm_num) (by norm_num) (by norm_num) (by norm_num)
    (show find_generator 11 5 [0] = some 4 by decide)

/-- C7: for every `p > 4` and every `g`, `generate_keys p g` is a total
function (no retry, no error) returning `(x, y)` with `2 ≤ x ≤ p - 3` and
`y = g ^ x mod p`. -/
theorem generate_keys_spec (p g seed : ℕ) (hp : 4 < p) :
    2 ≤ (generate_keys p g seed).1 ∧ (generate_keys p g seed).1 ≤ p - 3 ∧
      (generate_keys p g seed).2 = g ^ (generate_keys p g seed).1 % p := by
  have hmlt : seed % (p - 2 - 2) < p - 2 - 2 := Nat.mod_lt _ (by omega)
  refine ⟨?_, ?_, rfl⟩
  · show 2 ≤ 2 + seed % (p - 2 - 2)
    omega
  · show 2 + seed % (p - 2 - 2) ≤ p - 3
    omega

theorem generate_keys_spec_witness :
    2 ≤ (generate_keys 11 3 0).1 ∧ (generate_keys 11 3 0).1 ≤ 11 - 3 ∧
      (generate_keys 11 3 0).2 = 3 ^ (generate_keys 11 3 0).1 % 11 :=
  generate_keys_spec 11 3 0 (by norm_num)

/-- C9: `verify` consumes no randomness (unlike the generation and signing
functions it takes no seed input), so two calls with identical arguments
always return the same Boolean. -/
theorem verify_deterministic (H : List ℕ → ℕ) (msg : List ℕ) (sig : ℤ × ℤ)
    (p g y q : ℕ) : verify H msg sig p g y q = verify H msg sig p g y q := rfl

theorem sign_verify_roundtrip_witness :
    verify (fun _ => 7) [] (((5 : ℕ) : ℤ), ((4 : ℕ) : ℤ)) 11 3 9 5 = true := by
  haveI : Fact (Nat.Prime 5) := ⟨by norm_num⟩
  exact sign_verify_roundtrip (by norm_num) (by norm_num) (by norm_num)
    (orderOf_eq_prime (by decide) (by decide)) (by norm_num)
    (show sign (fun _ => 7) [] 11 3 2 5 [1] = some (5, 4) by decide)

/-- The shape of one candidate: `getrandbits` with the top and bottom bits
forced on, hence odd, of bit-length exactly `bits`. -/
lemma candidate_shape {bits : ℕ} (hbits : 1 ≤ bits) (seed : ℕ) :
    generate_prime_candidate bits seed % 2 = 1 ∧
    2 ^ (bits - 1) ≤ generate_prime_candidate bits seed ∧
    generate_prime_candidate bits seed < 2 ^ bits := by
  unfold generate_prime_candidate getrandbits
  have hbit0 : (seed % 2 ^ bits ||| (1 <<< (bits - 1) ||| 1)).testBit 0 = true := by
    rw [Nat.testBit_or, Nat.testBit_or]
    have h1 : (1 : ℕ).testBit 0 = true := rfl
    rw [h1]
    simp
  have hbittop :
      (seed % 2 ^ bits ||| (1 <<< (bits - 1) ||| 1)).testBit (bits - 1) = true := by
    rw [Nat.testBit_or, Nat.testBit_or, Nat.one_shiftLeft, Nat.testBit_two_pow_self]
    simp
  refine ⟨?_, ?_, ?_⟩
  · have h := Nat.testBit_zero (seed % 2 ^ bits ||| (1 <<< (bits - 1) ||| 1))
    exact of_decide_eq_true (h.symm.trans hbit0)
  · by_contra hlt
    push_neg at hlt
    have hf := Nat.testBit_lt_two_pow hlt
    rw [hbittop] at hf
    exact absurd hf (by simp)
  · apply Nat.or_lt_two_pow
    · exact Nat.mod_lt _ (Nat.two_pow_pos bits)
    · apply Nat.or_lt_two_pow
      · rw [Nat.one_shiftLeft]
        exact Nat.pow_lt_pow_right (by norm_num) (by omega)
      · exact Nat.one_lt_two_pow_iff.mpr (by omega)

/-- C8: for `bits ≥ 2`, every candidate built inside `generate_prime` — and
hence every prime it returns — is odd and has bit-length exactly `bits`
(both the top and the bottom bit are forced to 1). -/
theorem generate_prime_candidate_shape {bits : ℕ} (hbits : 2 ≤ bits) :
    (∀ seed : ℕ, generate_prime_candidate bits seed % 2 = 1 ∧
      2 ^ (bits - 1) ≤ generate_prime_candidate bits seed ∧
      generate_prime_candidate bits seed < 2 ^ bits) ∧
    (∀ (draws : List (ℕ × List ℕ)) (q : ℕ), generate_prime bits draws = some q →
      q % 2 = 1 ∧ 2 ^ (bits - 1) ≤ q ∧ q < 2 ^ bits) := by
  refine ⟨fun seed => candidate_shape (by omega) seed, fun draws q hq => ?_⟩
  obtain ⟨d, _, h1, _⟩ := generate_prime_eq_some hq
  rw [h1]
  exact candidate_shape (by omega) d.1

theorem generate_prime_candidate_shape_witness :
    generate_prime_candidate 8 200 % 2 = 1 ∧
      2 ^ (8 - 1) ≤ generate_prime_candidate 8 200 ∧
      generate_prime_candidate 8 200 < 2 ^ 8 :=
  (generate_prime_candidate_shape (by norm_num)).1 200

/-- C5: every pair returned by `generate_p_q` (for bit-lengths `b ≥ 8`)
satisfies `p = 2q + 1`, and both `q` (inside `generate_prime`) and `p` were
accepted by `is_prime` with the witness seeds actually drawn. -/
theorem generate_p_q_spec {b : ℕ} {draws : List (List (ℕ × List ℕ) × List ℕ)}
    {p q : ℕ} (hb : 8 ≤ b) (h : generate_p_q b draws = some (p, q)) :
    p = 2 * q + 1 ∧ ∃ e ∈ draws,
      (∃ c ∈ e.1, q = generate_prime_candidate b c.1 ∧
        is_prime (q : ℤ) c.2 = true) ∧
      is_prime (p : ℤ) e.2 = true :=
  generate_p_q_eq_some h

theorem generate_p_q_spec_witness :
    (263 : ℕ) = 2 * 131 + 1 ∧ ∃ e ∈ [([((131 : ℕ), [(0 : ℕ)])], [(0 : ℕ)])],
      (∃ c ∈ e.1, (131 : ℕ) = generate_prime_candidate 8 c.1 ∧
        is_prime ((131 : ℕ) : ℤ) c.2 = true) ∧
      is_prime ((263 : ℕ) : ℤ) e.2 = true :=
  generate_p_q_spec (by norm_num)
    (show generate_p_q 8 [([(131, [0])], [0])] = some (263, 131) by decide)

/-- C6: `is_prime` is total, returns `false` for every integer below 2, and
on the known values: `is_prime 2 = true`, `is_prime 4 = false`,
`is_prime 97 = true`, `is_prime 561 = false` (the Carmichael number is
rejected), for every choice of random witness seeds. -/
theorem is_prime_known_values :
    (∀ (n : ℤ) (ws : List ℕ), n < 2 → is_prime n ws = false) ∧
    (∀ ws : List ℕ, is_prime 2 ws = true) ∧
    (∀ ws : List ℕ, is_prime 4 ws = false) ∧
    (∀ ws : List ℕ, is_prime 97 ws = true) ∧
    (∀ ws : List ℕ, is_prime 561 ws = false) := by
  refine ⟨?_, ?_, ?_, ?_, ?_⟩
  · intro n ws hn
    rw [is_prime, if_pos hn]
  · intro ws; rfl
  · intro ws; rfl
  · intro ws
    have h := is_prime_of_prime 97 (by norm_num) ws
    simpa using h
  · intro ws; rfl

theorem is_prime_known_values_witness : is_prime (-7) [] = false :=
  is_prime_known_values.1 (-7) [] (by norm_num)

/-- C10: Miller-Rabin as implemented has no false negatives: `is_prime`
returns `true` on every prime input, for every round count and every
sequence of witness seeds. -/
theorem miller_rabin_no_false_negatives (n : ℕ) (hn : n.Prime) (ws : List ℕ) :
    is_prime (n : ℤ) ws = true :=
  is_prime_of_prime n hn ws

theorem miller_rabin_no_false_negatives_witness :
    is_prime ((131 : ℕ) : ℤ) [0, 5, 38] = true :=
  miller_rabin_no_false_negatives 131 (by norm_num) [0, 5, 38]
